import Mathlib

/- Verification of the storage and inventory-lifecycle subsystem of the
expiry-date tracker (`app.py`).

This file gives a shallow embedding of the data model and of the operations
`DataManager.save`, `InventoryService.get_inventory`, `InventoryService.add_item`,
`InventoryService.delete_item`, `CategoryService.get_categories` and
`CategoryService.delete_category`, translated from the Python source, and
proves theorems checking the specification's claims about them.

Modelling conventions:
- JSON documents are Lean lists of records.  The fields that the code reads
  with `dict.get`/`in`-tests are `Option`-typed (with `none` meaning the key
  is absent); the `expiry_date` field, whose value kind the code inspects
  (truthiness, string comparison, `strptime`), is a small sum type `PyVal`
  covering the cases the code distinguishes: key absent, JSON null, a string,
  and a non-string scalar (represented by an integer).
- `datetime.now()` is an input: operations take today's ISO string
  (`strftime('%Y-%m-%d')`) and today's day number (for the purge arithmetic)
  as parameters.  Because `datetime.now()` has a time-of-day component in
  `[0, 1)` of a day and `strptime` results are midnights,
  `now < parsed + timedelta(days=30)` holds iff `dayNumber now < dayNumber parsed + 30`.
- Fallible code returns `Except Unit`; an uncaught Python exception is
  `Except.error ()`.
- File writes are modelled by returning the new document together with a
  flag recording whether `DataManager.save` was invoked for it. -/

namespace App

/-- Decidable equality for `Except` results (used to evaluate the operations
on concrete inputs). -/
def exceptDecEqFn {ε : Type u} {α : Type v} [DecidableEq ε] [DecidableEq α] :
    (a b : Except ε α) → Decidable (a = b)
  | .ok a, .ok b =>
      if h : a = b then .isTrue (by rw [h])
      else .isFalse (fun hc => h (Except.ok.inj hc))
  | .error a, .error b =>
      if h : a = b then .isTrue (by rw [h])
      else .isFalse (fun hc => h (Except.error.inj hc))
  | .ok _, .error _ => .isFalse (fun hc => Except.noConfusion hc)
  | .error _, .ok _ => .isFalse (fun hc => Except.noConfusion hc)

instance {ε : Type u} {α : Type v} [DecidableEq ε] [DecidableEq α] :
    DecidableEq (Except ε α) := exceptDecEqFn

/-- Kinds of value the code distinguishes for the `expiry_date` key of an
item record: key absent, JSON null, a string, or a non-string scalar. -/
inductive PyVal where
  | absent
  | null
  | str (s : String)
  | intv (n : Int)
deriving DecidableEq

/-- Python truthiness of the value read by `item.get('expiry_date')`
(an absent key yields `None`, which is falsy). -/
def PyVal.truthy : PyVal → Bool
  | .absent => false
  | .null => false
  | .str s => decide (s ≠ "")
  | .intv n => decide (n ≠ 0)

/-- An inventory item record (section 3 of the spec; constructed in
`InventoryService.add_item`).  `category`/`archived_at` are `none` when the
key is absent. -/
structure Item where
  id : Int
  name : String
  expiry_date : PyVal
  category : Option String
  owner : String
  added_at : String
  archived_at : Option String
deriving DecidableEq

/-- Strict lexicographic order on code-point sequences: the comparison
Python performs for `expiry_date < today_str`. -/
def lexLt : List Char → List Char → Bool
  | [], [] => false
  | [], _ :: _ => true
  | _ :: _, [] => false
  | a :: as, b :: bs =>
      if a.toNat < b.toNat then true
      else if a.toNat = b.toNat then lexLt as bs else false

/-- Non-strict lexicographic order on code-point sequences (used for the
`sorted(..., key=name)` call in `get_categories`). -/
def lexLe : List Char → List Char → Bool
  | [], _ => true
  | _ :: _, [] => false
  | a :: as, b :: bs =>
      if a.toNat < b.toNat then true
      else if a.toNat = b.toNat then lexLe as bs else false

/-- Python string `<` (lexicographic by code point). -/
def strLt (a b : String) : Bool := lexLt a.data b.data

/-- Python string `<=` (lexicographic by code point). -/
def strLe (a b : String) : Bool := lexLe a.data b.data

/-- Gregorian leap-year test, as used by `datetime`. -/
def isLeap (y : Nat) : Bool := (y % 4 == 0 && y % 100 != 0) || y % 400 == 0

/-- Number of days in a month of the proleptic Gregorian calendar. -/
def daysInMonth (y m : Nat) : Nat :=
  if m = 2 then (if isLeap y then 29 else 28)
  else if m = 4 ∨ m = 6 ∨ m = 9 ∨ m = 11 then 30
  else 31

/-- A parsed calendar date (the result of
`datetime.strptime(s, '%Y-%m-%d')`). -/
structure Ymd where
  y : Nat
  m : Nat
  d : Nat
deriving DecidableEq

/-- Day number of a Gregorian calendar date (days since 0000-03-01),
the standard civil-from-days correspondence; it is what `datetime`
subtraction and `timedelta` addition compute with. -/
def toDays (y m d : Nat) : Nat :=
  let y' := if m ≤ 2 then y - 1 else y
  let era := y' / 400
  let yoe := y' % 400
  let mp := (m + 9) % 12
  let doy := (153 * mp + 2) / 5 + d - 1
  let doe := yoe * 365 + yoe / 4 - yoe / 100 + doy
  era * 146097 + doe

/-- Split a code-point sequence at `'-'` separators (the separators of the
`'%Y-%m-%d'` format; the numeric components may not contain `'-'`, so
`strptime` matching decomposes exactly like this split). -/
def splitOnDash : List Char → List (List Char)
  | [] => [[]]
  | c :: rest =>
      match splitOnDash rest with
      | [] => [[c]]
      | h :: t => if c = '-' then [] :: h :: t else (c :: h) :: t

/-- Numeric value of a sequence of decimal digit characters. -/
def digitsToNat (cs : List Char) : Nat :=
  cs.foldl (fun n c => 10 * n + (c.toNat - 48)) 0

/-- A non-empty all-decimal-digit sequence. -/
def isDigits (cs : List Char) : Bool := !cs.isEmpty && cs.all (·.isDigit)

/-- The `%Y` component: exactly four digits. -/
def parseYear (cs : List Char) : Option Nat :=
  if cs.length == 4 && isDigits cs then some (digitsToNat cs) else none

/-- The `%m`/`%d` components: one or two digits, value within `lo..hi`
(`strptime` accepts both zero-padded and unpadded one- or two-digit
numbers). -/
def parse2 (lo hi : Nat) (cs : List Char) : Option Nat :=
  if (cs.length == 1 || cs.length == 2) && isDigits cs then
    let v := digitsToNat cs
    if lo ≤ v ∧ v ≤ hi then some v else none
  else none

/-- `datetime.strptime(s, '%Y-%m-%d')`: three dash-separated numeric
components consuming the whole string, followed by the `datetime`
constructor's calendar-validity check (`ValueError`, i.e. `none`,
otherwise). -/
def strptimeYmd (s : String) : Option Ymd :=
  match splitOnDash s.data with
  | [ys, ms, ds] =>
      match parseYear ys, parse2 1 12 ms, parse2 1 31 ds with
      | some y, some m, some d =>
          if 1 ≤ y ∧ d ≤ daysInMonth y m then some ⟨y, m, d⟩ else none
      | _, _, _ => none
  | _ => none

/-- The self-heal step of `get_inventory`: `if 'category' not in item:
item['category'] = 'General'; updates_needed = True`.  Returns the (possibly
repaired) item and the dirty contribution. -/
def healCategory (it : Item) : Item × Bool :=
  match it.category with
  | none => ({ it with category := some "General" }, true)
  | some _ => (it, false)

/-- Destination of a fresh item after the expiry check of `get_inventory`. -/
inductive Classified where
  | fresh (it : Item)
  | expired (it : Item)
deriving DecidableEq

/-- The expiry check of `get_inventory` for one fresh item:
`if item.get('expiry_date'):` (truthiness) then the string comparison
`item['expiry_date'] < today_str`; a truthy non-string makes that comparison
raise `TypeError`, which the bare `except` turns into keeping the item in
fresh.  An expired item is stamped `archived_at = today_str`. -/
def classify (todayStr : String) (it : Item) : Classified :=
  match it.expiry_date with
  | .str s =>
      if s ≠ "" then
        if strLt s todayStr then .expired { it with archived_at := some todayStr }
        else .fresh it
      else .fresh it
  | .intv _ => .fresh it
  | .absent => .fresh it
  | .null => .fresh it

/-- Pipeline 1 of `get_inventory` over the fresh collection: heal the
category, classify, collect the surviving fresh list, the items moved to the
expired list (in order), and the dirty flag. -/
def sweepFresh (todayStr : String) : List Item → List Item × List Item × Bool
  | [] => ([], [], false)
  | it :: rest =>
      let (it1, d1) := healCategory it
      let (nf, mv, d) := sweepFresh todayStr rest
      match classify todayStr it1 with
      | .expired it2 => (nf, it2 :: mv, true)
      | .fresh it2 => (it2 :: nf, mv, d1 || d)

/-- The date of an expired record as the purge pass parses it:
`strptime(item['expiry_date'], '%Y-%m-%d')` succeeds only on a string value
that parses; null and non-string values raise `TypeError` (a parse
failure). -/
def parsedExpiry (it : Item) : Option Ymd :=
  match it.expiry_date with
  | .str s => strptimeYmd s
  | _ => none

/-- Pipeline 2 of `get_inventory` for one expired item: heal the category,
then `strptime(item['expiry_date'], '%Y-%m-%d')`.  An absent key raises
`KeyError`, which the `except (ValueError, TypeError)` clause does not
catch, so it propagates (`Except.error`).  `ValueError`/`TypeError` purge
the record; a parsed date is kept iff `today < parsed + timedelta(days=30)`. -/
def purgeItem (todayDays : Nat) (it : Item) : Except Unit (Option Item × Bool) :=
  let (it1, d1) := healCategory it
  match it1.expiry_date with
  | .absent => .error ()
  | .null => .ok (none, true)
  | .intv _ => .ok (none, true)
  | .str s =>
      match strptimeYmd s with
      | none => .ok (none, true)
      | some dt =>
          if todayDays < toDays dt.y dt.m dt.d + 30 then .ok (some it1, d1)
          else .ok (none, true)

/-- Pipeline 2 of `get_inventory` over the whole expired collection. -/
def purgeExpired (todayDays : Nat) : List Item → Except Unit (List Item × Bool)
  | [] => .ok ([], false)
  | it :: rest =>
      match purgeItem todayDays it with
      | .error e => .error e
      | .ok (keep, d1) =>
          match purgeExpired todayDays rest with
          | .error e => .error e
          | .ok (tl, d2) =>
              .ok ((match keep with | some x => x :: tl | none => tl), d1 || d2)

/-- Identifier of a category record: the bootstrap seeds use strings
(`"sys_0"`, ...), `add_category` uses integer timestamps. -/
inductive CatId where
  | strId (v : String)
  | numId (v : Int)
deriving DecidableEq

/-- A category record.  `id` and `owner` are `none` when the key is absent
(as in the in-memory `DEFAULT_CATEGORIES` seed constant). -/
structure Category where
  id : Option CatId
  name : String
  type : String
  owner : Option String
deriving DecidableEq

/-- The immutable in-memory system-category seed constant
`DEFAULT_CATEGORIES` of `app.py`: five records carrying only `name` and
`type`. -/
def DEFAULT_CATEGORIES : List Category :=
  [⟨none, "General", "system", none⟩,
   ⟨none, "Food", "system", none⟩,
   ⟨none, "Medicine", "system", none⟩,
   ⟨none, "Documents", "system", none⟩,
   ⟨none, "Personal Care", "system", none⟩]

/-- The five system category names. -/
def sysNames : List String := DEFAULT_CATEGORIES.map (·.name)

/-- The four persisted documents. -/
structure Store where
  users : List (String × String)
  fresh : List Item
  expired : List Item
  categories : List Category
deriving DecidableEq

/-- Result of `get_inventory`: the post-run persisted state, whether the
fresh and expired documents were saved (`updates_needed`), and the per-user
output. -/
structure InvResult where
  store : Store
  saved : Bool
  freshOut : List Item
  expiredOut : List Item
deriving DecidableEq

/-- `InventoryService.get_inventory(username)`: load, sweep fresh into
expired, purge old expired records (the purge pass also sees the items just
moved, since they were appended to `all_expired`), save both documents iff
`updates_needed`, and return the `owner == username` filtrations.  A
`KeyError` in the purge pass aborts the whole operation. -/
def get_inventory (todayStr : String) (todayDays : Nat) (username : String)
    (st : Store) : Except Unit InvResult :=
  let (newFresh, moved, d1) := sweepFresh todayStr st.fresh
  match purgeExpired todayDays (st.expired ++ moved) with
  | .error e => .error e
  | .ok (finalExpired, d2) =>
      .ok { store := { st with fresh := newFresh, expired := finalExpired },
            saved := d1 || d2,
            freshOut := newFresh.filter (fun i => decide (i.owner = username)),
            expiredOut := finalExpired.filter (fun i => decide (i.owner = username)) }

/-- The item record `InventoryService.add_item` constructs:
`id = int(datetime.now().timestamp() * 1_000_000)` (the microsecond count of
the call's clock reading), with `category` defaulted to `'General'`. -/
def mkItem (nowMicros : Int) (todayStr : String) (name : String)
    (expiry : PyVal) (category : Option String) (username : String) : Item :=
  { id := nowMicros, name := name, expiry_date := expiry,
    category := some (category.getD "General"),
    owner := username, added_at := todayStr, archived_at := none }

/-- `InventoryService.add_item`: append the new item to the fresh document
and save. -/
def add_item (nowMicros : Int) (todayStr : String) (name : String)
    (expiry : PyVal) (category : Option String) (username : String)
    (st : Store) : Item × Store :=
  let item := mkItem nowMicros todayStr name expiry category username
  (item, { st with fresh := st.fresh ++ [item] })

/-- One `add_item` call's inputs: the clock reading (in microseconds)
observed by the call and the request fields. -/
structure AddCall where
  nowMicros : Int
  name : String
  expiry : PyVal
  category : Option String
deriving DecidableEq

/-- A sequence of `add_item` calls performed in succession (each with the
clock reading it observes). -/
def addMany (todayStr : String) (username : String) (st : Store) :
    List AddCall → Store
  | [] => st
  | c :: cs =>
      addMany todayStr username
        (add_item c.nowMicros todayStr c.name c.expiry c.category username st).2 cs

/-- Result of `delete_item`: the returned boolean, the post state, and
whether the fresh document was saved. -/
structure DelResult where
  deleted : Bool
  store : Store
  savedFresh : Bool
deriving DecidableEq

/-- `InventoryService.delete_item(item_id, username)`: keep every fresh item
except those matching both the id and the owner; save and return `True` iff
the length changed. -/
def delete_item (itemId : Int) (username : String) (st : Store) : DelResult :=
  let newFresh := st.fresh.filter (fun i => decide (¬(i.id = itemId ∧ i.owner = username)))
  if newFresh.length ≠ st.fresh.length
  then ⟨true, { st with fresh := newFresh }, true⟩
  else ⟨false, st, false⟩

/-- Key-membership test in the insertion-ordered name-to-record map
(`c['name'] in cat_map`). -/
def hasKey (n : String) : List (String × Category) → Bool
  | [] => false
  | p :: ps => if p.1 = n then true else hasKey n ps

/-- `cat_map[c['name']] = c` guarded by `c['name'] not in cat_map`: a fresh
key is appended (Python dicts preserve insertion order), an existing key
leaves the map unchanged (the code only assigns under the `not in` guard). -/
def catMapInsert (m : List (String × Category)) (c : Category) :
    List (String × Category) :=
  if hasKey c.name m then m else m ++ [(c.name, c)]

/-- The loop body of `get_categories`: only records with
`c.get('owner') == username` are considered, and only non-conflicting names
are added. -/
def catStep (username : String) (m : List (String × Category)) (c : Category) :
    List (String × Category) :=
  if c.owner = some username then catMapInsert m c else m

/-- Insert a category into a name-sorted list (for `sorted(..., key=name)`). -/
def insertCat (c : Category) : List Category → List Category
  | [] => [c]
  | d :: ds => if strLe c.name d.name then c :: d :: ds else d :: insertCat c ds

/-- Sort category records by name ascending.  The map the code sorts has
pairwise-distinct names (it is built keyed by name), so every sort by name
agrees with Python's stable `sorted`. -/
def sortCats : List Category → List Category
  | [] => []
  | c :: cs => insertCat c (sortCats cs)

/-- `CategoryService.get_categories(username)`: seed the name-keyed map from
the in-memory `DEFAULT_CATEGORIES` constant, add the user's non-conflicting
custom records from the persisted document, and return the values sorted by
name. -/
def get_categories (username : String) (cats : List Category) : List Category :=
  sortCats
    ((cats.foldl (catStep username)
        (DEFAULT_CATEGORIES.map (fun c => (c.name, c)))).map Prod.snd)

/-- The per-item migration `delete_category` applies to inventory items:
`if item.get('owner') == username and item.get('category') == name:
item['category'] = 'General'`. -/
def migrateOne (name username : String) (it : Item) : Item :=
  if it.owner = username ∧ it.category = some name
  then { it with category := some "General" } else it

/-- The `migrate_items` helper of `delete_category`: rewrite matching items
and report whether any mutation (hence a save) happened. -/
def migrate_items (name username : String) : List Item → List Item × Bool
  | [] => ([], false)
  | it :: its =>
      let (tl, d) := migrate_items name username its
      if it.owner = username ∧ it.category = some name
      then ({ it with category := some "General" } :: tl, true)
      else (it :: tl, d)

/-- The lookup loop of `delete_category`: the first record matching name,
owner and `type == 'custom'`. -/
def findCustom (name username : String) : List Category → Option Category
  | [] => none
  | c :: cs =>
      if c.name = name ∧ c.owner = some username ∧ c.type = "custom"
      then some c else findCustom name username cs

/-- Result of `delete_category`: the success flag, the post state, and which
of the three touched documents were saved. -/
structure DelCatResult where
  ok : Bool
  store : Store
  savedCategories : Bool
  savedFresh : Bool
  savedExpired : Bool
deriving DecidableEq

/-- `CategoryService.delete_category(name, username)`: fail unless a custom
category with that exact name is owned by the user; otherwise drop its
record (by id), save the categories document, and migrate matching items of
both inventory documents, saving each iff its migration flag was set. -/
def delete_category (name username : String) (st : Store) : DelCatResult :=
  match findCustom name username st.categories with
  | none => ⟨false, st, false, false, false⟩
  | some c =>
      let cats' := st.categories.filter (fun x => decide (x.id ≠ c.id))
      let (fr, df) := migrate_items name username st.fresh
      let (ex, de) := migrate_items name username st.expired
      ⟨true, { st with categories := cats', fresh := fr, expired := ex },
       true, df, de⟩

def c5foodLower : Category := ⟨some (.numId 7), "food", "custom", some "u"⟩

def c5cats : List Category :=
  [⟨some (.strId "sys_0"), "General", "system", some "system"⟩,
   ⟨some (.strId "sys_1"), "Food", "system", some "system"⟩,
   c5foodLower]

def w5cat : Category := ⟨some (.numId 9), "Snacks", "custom", some "u"⟩

def w5cats : List Category := [w5cat]

def w6cat : Category := ⟨some (.numId 5), "Snacks", "custom", some "ann"⟩

def w6a : Item := ⟨1, "chips", .str "2030-01-01", some "Snacks", "ann", "2026-01-01", none⟩

def w6b : Item := ⟨2, "cake", .str "2030-01-01", some "Snacks", "bob", "2026-01-01", none⟩

def w6store : Store := ⟨[], [w6a, w6b], [], [w6cat]⟩

/-- Where a `DataManager.save` call fails, if at all: during `json.dump`
into the temporary file (leaving some written prefix behind, with
`temp_name` still unbound), at temporary-file creation, or after the
temporary file is fully written but before (or at) the rename. -/
inductive FailMode where
  | success
  | createFail
  | duringSerialize (written : String)
  | beforeRename
deriving DecidableEq

/-- Outcome of one `DataManager.save` call: whether the exception
propagated, the target file's contents afterwards, and the contents of any
leftover temporary file. -/
structure SaveResult where
  raised : Bool
  target : Option String
  tempLeft : Option String
deriving DecidableEq

/-- `DataManager.save`: write the serialized document to a fresh temporary
file, fsync, atomically rename over the target.  On an exception the code
runs `os.remove(temp_name)` only when `'temp_name' in locals()` — and
`temp_name` is bound only after `json.dump` returns, so a failure during
serialization skips the cleanup — then re-raises. -/
def save (mode : FailMode) (content : String) (oldTarget : Option String) :
    SaveResult :=
  match mode with
  | .success => ⟨false, some content, none⟩
  | .createFail => ⟨true, oldTarget, none⟩
  | .duringSerialize w => ⟨true, oldTarget, some w⟩
  | .beforeRename => ⟨true, oldTarget, none⟩

def w9item : Item := ⟨7, "x", .str "2026-01-01", some "Food", "a", "2025-01-01", some "2026-01-02"⟩

def w9store : Store := ⟨[], [], [w9item], []⟩

def w4item : Item := ⟨5, "milk", .str "2030-01-01", some "General", "alice", "2026-01-01", none⟩

def w4store : Store := ⟨[], [w4item], [], []⟩

def c8calls : List AddCall :=
  [⟨1000, "first", .str "2030-01-01", none⟩, ⟨1000, "second", .str "2030-01-01", none⟩]

def c1item : Item := ⟨2, "ghost", PyVal.absent, some "Food", "u", "2020-01-01", none⟩

def c1store : Store := ⟨[], [], [c1item], []⟩

def w1item : Item := ⟨11, "jam", .str "2026-09-01", some "Food", "u", "2026-01-01", none⟩

def w3item : Item := ⟨21, "cheese", .str "2026-10-11", none, "u", "2026-10-01", none⟩

def w3store : Store := ⟨[], [w3item], [], []⟩

def w3moved : Item := { w3item with category := some "General", archived_at := some "2026-10-12" }

def w3store2 : Store := ⟨[], [], [w3moved], []⟩

def c2item : Item := ⟨3, "e", .str "", some "Food", "u", "2020-01-01", none⟩

def w2item : Item := ⟨4, "old", .str "2026-10-11", some "General", "u", "2026-01-01", none⟩

def c8callsW : List AddCall :=
  [⟨1000, "a", .str "2030-01-01", none⟩, ⟨1001, "b", .str "2030-01-01", none⟩]

lemma hasKey_iff (n : String) (m : List (String × Category)) :
    hasKey n m = true ↔ n ∈ m.map Prod.fst := by
  induction m with
  | nil => simp [hasKey]
  | cons p ps ih =>
      rw [hasKey]
      by_cases h : p.1 = n
      · simp [h]
      · rw [if_neg h]
        simp [List.map_cons, ih, Ne.symm h]

lemma catMapInsert_sub (m : List (String × Category)) (c : Category) :
    ∀ p ∈ m, p ∈ catMapInsert m c := by
  intro p hp
  unfold catMapInsert
  split
  · exact hp
  · exact List.mem_append_left _ hp

lemma mem_catMapInsert (p : String × Category) (m : List (String × Category))
    (c : Category) (h : p ∈ catMapInsert m c) :
    p ∈ m ∨ (p = (c.name, c) ∧ hasKey c.name m = false) := by
  unfold catMapInsert at h
  split at h
  next hk => exact Or.inl h
  next hk =>
      rcases List.mem_append.mp h with h1 | h1
      · exact Or.inl h1
      · exact Or.inr ⟨List.mem_singleton.mp h1, Bool.eq_false_iff.mpr hk⟩

lemma catMapInsert_keys (n : String) (m : List (String × Category)) (c : Category)
    (h : n ∈ (catMapInsert m c).map Prod.fst) : n ∈ m.map Prod.fst ∨ n = c.name := by
  unfold catMapInsert at h
  split at h
  next hk => exact Or.inl h
  next hk =>
      rw [List.map_append] at h
      rcases List.mem_append.mp h with h1 | h1
      · exact Or.inl h1
      · exact Or.inr (List.mem_singleton.mp h1)

lemma catMapInsert_keys_mono (n : String) (m : List (String × Category))
    (c : Category) (h : n ∈ m.map Prod.fst) : n ∈ (catMapInsert m c).map Prod.fst := by
  unfold catMapInsert
  split
  · exact h
  · rw [List.map_append]
    exact List.mem_append_left _ h

lemma foldl_catStep_mono (u : String) (l : List Category) :
    ∀ (m : List (String × Category)) (p : String × Category),
      p ∈ m → p ∈ l.foldl (catStep u) m := by
  induction l with
  | nil => intro m p hp; simpa using hp
  | cons c cs ih =>
      intro m p hp
      rw [List.foldl_cons]
      apply ih
      unfold catStep
      split
      · exact catMapInsert_sub m c p hp
      · exact hp

lemma foldl_catStep_keys_mono (u : String) (l : List Category) :
    ∀ (m : List (String × Category)) (n : String),
      n ∈ m.map Prod.fst → n ∈ (l.foldl (catStep u) m).map Prod.fst := by
  induction l with
  | nil => intro m n hn; simpa using hn
  | cons c cs ih =>
      intro m n hn
      rw [List.foldl_cons]
      apply ih
      unfold catStep
      split
      · exact catMapInsert_keys_mono n m c hn
      · exact hn

/-- Every entry of the name-keyed map `get_categories` builds is either an
entry of the initial (system-seed) map, or a custom record of the user whose
name was not already a key of the initial map. -/
lemma foldl_catStep_mem (u : String) (l : List Category) :
    ∀ (m : List (String × Category)) (p : String × Category),
      p ∈ l.foldl (catStep u) m →
      p ∈ m ∨ (p.2 ∈ l ∧ p.1 = p.2.name ∧ p.2.owner = some u ∧
        p.1 ∉ m.map Prod.fst) := by
  induction l with
  | nil => intro m p hp; left; simpa using hp
  | cons c cs ih =>
      intro m p hp
      rw [List.foldl_cons] at hp
      rcases ih (catStep u m c) p hp with h1 | ⟨h2, h3, h4, h5⟩
      · unfold catStep at h1
        split at h1
        next howner =>
            rcases mem_catMapInsert p m c h1 with h6 | ⟨h6, h7⟩
            · exact Or.inl h6
            · right
              subst h6
              refine ⟨List.mem_cons_self c cs, rfl, howner, ?_⟩
              intro hk
              rw [← hasKey_iff] at hk
              rw [h7] at hk
              exact Bool.false_ne_true hk
        next => exact Or.inl h1
      · right
        refine ⟨List.mem_cons_of_mem c h2, h3, h4, ?_⟩
        intro hn
        apply h5
        unfold catStep
        split
        · exact catMapInsert_keys_mono p.1 m c hn
        · exact hn

/-- Under per-owner name uniqueness, each custom record of the user whose
name is not a key of the initial map ends up in the map. -/
lemma foldl_catStep_first (u : String) (l : List Category) :
    ∀ (m : List (String × Category)) (c : Category), c ∈ l → c.owner = some u →
      c.name ∉ m.map Prod.fst →
      ((l.filter (fun x => decide (x.owner = some u))).map Category.name).Nodup →
      (c.name, c) ∈ l.foldl (catStep u) m := by
  induction l with
  | nil => intro m c hc; simp at hc
  | cons x rest ih =>
      intro m c hc howner hnotin hnd
      rw [List.foldl_cons]
      rcases List.mem_cons.mp hc with h1 | h1
      · subst h1
        apply foldl_catStep_mono
        unfold catStep catMapInsert
        rw [if_pos howner,
          if_neg (fun hk => hnotin ((hasKey_iff c.name m).mp hk))]
        exact List.mem_append_right m (List.mem_singleton.mpr rfl)
      · by_cases hx : x.owner = some u
        · have hxl : (x :: rest).filter (fun y => decide (y.owner = some u)) =
              x :: rest.filter (fun y => decide (y.owner = some u)) := by
            simp [List.filter_cons, hx]
          rw [hxl, List.map_cons] at hnd
          have hnx := (List.nodup_cons.mp hnd).1
          have hnd2 := (List.nodup_cons.mp hnd).2
          have hcname : c.name ≠ x.name := by
            intro hEq
            apply hnx
            rw [← hEq]
            exact List.mem_map_of_mem Category.name
              (List.mem_filter.mpr ⟨h1, by simp [howner]⟩)
          apply ih (catStep u m x) c h1 howner ?_ hnd2
          intro hk
          unfold catStep at hk
          rw [if_pos hx] at hk
          rcases catMapInsert_keys c.name m x hk with h2 | h2
          · exact hnotin h2
          · exact hcname h2
        · have hxl : (x :: rest).filter (fun y => decide (y.owner = some u)) =
              rest.filter (fun y => decide (y.owner = some u)) := by
            simp [List.filter_cons, hx]
          rw [hxl] at hnd
          apply ih (catStep u m x) c h1 howner ?_ hnd
          intro hk
          unfold catStep at hk
          rw [if_neg hx] at hk
          exact hnotin hk

lemma init_map_keys :
    ((DEFAULT_CATEGORIES.map (fun c => (c.name, c))).map Prod.fst) = sysNames := by
  rw [List.map_map]; rfl

lemma mem_insertCat (a c : Category) (l : List Category) :
    a ∈ insertCat c l ↔ a = c ∨ a ∈ l := by
  induction l with
  | nil => simp [insertCat]
  | cons d ds ih =>
      unfold insertCat
      split
      · simp [List.mem_cons]
      · simp only [List.mem_cons, ih]
        tauto

lemma mem_sortCats (a : Category) (l : List Category) :
    a ∈ sortCats l ↔ a ∈ l := by
  induction l with
  | nil => simp [sortCats]
  | cons c cs ih =>
      unfold sortCats
      rw [mem_insertCat, ih, List.mem_cons]

lemma lexLe_total : ∀ as bs : List Char, lexLe as bs = true ∨ lexLe bs as = true := by
  intro as
  induction as with
  | nil => intro bs; exact Or.inl rfl
  | cons a as2 ih =>
      intro bs
      cases bs with
      | nil => exact Or.inr rfl
      | cons b bs2 =>
          rcases Nat.lt_trichotomy a.toNat b.toNat with h | h | h
          · left; simp [lexLe, h]
          · rcases ih bs2 with h2 | h2
            · left; simp [lexLe, h, h2]
            · right; simp [lexLe, h, h2]
          · right; simp [lexLe, h]

lemma lexLe_trans : ∀ as bs cs : List Char,
    lexLe as bs = true → lexLe bs cs = true → lexLe as cs = true := by
  intro as
  induction as with
  | nil => intro bs cs h1 h2; rfl
  | cons a as2 ih =>
      intro bs cs h1 h2
      cases bs with
      | nil => exact absurd h1 (by simp [lexLe])
      | cons b bs2 =>
          cases cs with
          | nil => exact absurd h2 (by simp [lexLe])
          | cons c cs2 =>
              simp only [lexLe] at h1 h2 ⊢
              by_cases hab : a.toNat < b.toNat
              · by_cases hbc : b.toNat < c.toNat
                · simp [Nat.lt_trans hab hbc]
                · rw [if_neg hbc] at h2
                  by_cases hbc2 : b.toNat = c.toNat
                  · simp [hbc2 ▸ hab]
                  · rw [if_neg hbc2] at h2
                    exact absurd h2 (by simp)
              · rw [if_neg hab] at h1
                by_cases hab2 : a.toNat = b.toNat
                · rw [if_pos hab2] at h1
                  by_cases hbc : b.toNat < c.toNat
                  · simp [hab2 ▸ hbc]
                  · rw [if_neg hbc] at h2
                    by_cases hbc2 : b.toNat = c.toNat
                    · rw [if_pos hbc2] at h2
                      have hac : a.toNat = c.toNat := hab2.trans hbc2
                      have hltac : ¬ a.toNat < c.toNat := by omega
                      rw [if_neg hltac, if_pos hac]
                      exact ih bs2 cs2 h1 h2
                    · rw [if_neg hbc2] at h2
                      exact absurd h2 (by simp)
                · rw [if_neg hab2] at h1
                  exact absurd h1 (by simp)

lemma strLe_total (a b : String) : strLe a b = true ∨ strLe b a = true :=
  lexLe_total a.data b.data

lemma strLe_trans (a b c : String) (h1 : strLe a b = true) (h2 : strLe b c = true) :
    strLe a c = true :=
  lexLe_trans a.data b.data c.data h1 h2

lemma pairwise_insertCat (c : Category) (l : List Category)
    (h : l.Pairwise (fun a b => strLe a.name b.name = true)) :
    (insertCat c l).Pairwise (fun a b => strLe a.name b.name = true) := by
  induction l with
  | nil => simp [insertCat]
  | cons d ds ih =>
      unfold insertCat
      obtain ⟨hd, hds⟩ := List.pairwise_cons.mp h
      split
      next hle =>
          refine List.pairwise_cons.mpr ⟨?_, h⟩
          intro b hb
          rcases List.mem_cons.mp hb with h1 | h1
          · subst h1; exact hle
          · exact strLe_trans c.name d.name b.name hle (hd b h1)
      next hle =>
          have hdc : strLe d.name c.name = true := by
            rcases strLe_total c.name d.name with h1 | h1
            · exact absurd h1 hle
            · exact h1
          refine List.pairwise_cons.mpr ⟨?_, ih hds⟩
          intro b hb
          rcases (mem_insertCat b c ds).mp hb with h1 | h1
          · subst h1; exact hdc
          · exact hd b h1

lemma sortCats_pairwise (l : List Category) :
    (sortCats l).Pairwise (fun a b => strLe a.name b.name = true) := by
  induction l with
  | nil => simp [sortCats]
  | cons c cs ih => exact pairwise_insertCat c (sortCats cs) ih

/-- The five seed records are always in the returned list, for every user
and every persisted categories document. -/
lemma mem_default_mem_get_categories (u : String) (cats : List Category)
    (c : Category) (h : c ∈ DEFAULT_CATEGORIES) : c ∈ get_categories u cats := by
  unfold get_categories
  rw [mem_sortCats]
  have h1 : (c.name, c) ∈ DEFAULT_CATEGORIES.map (fun d => (d.name, d)) :=
    List.mem_map_of_mem (fun d => (d.name, d)) h
  have h2 := foldl_catStep_mono u cats _ _ h1
  exact List.mem_map_of_mem Prod.snd h2

/-- Claim C5 (amended): `get_categories` starts from the in-memory system
seed (always returned), adds exactly the user-owned custom records whose
name does not collide case-SENSITIVELY with a system name (the code checks
`c['name'] not in cat_map`, an exact-match test, so only an exactly-equal
name is shadowed — a case-variant duplicate is returned alongside, see the
counterexample), each such record being returned under the per-owner
name-uniqueness invariant, and the result is sorted by name ascending. -/
theorem C5_get_categories_shadowing :
    (∀ (u : String) (cats : List Category) (c : Category),
       c ∈ DEFAULT_CATEGORIES → c ∈ get_categories u cats) ∧
    (∀ (u : String) (cats : List Category) (c : Category),
       c ∈ get_categories u cats →
       c ∈ DEFAULT_CATEGORIES ∨
         (c ∈ cats ∧ c.owner = some u ∧ c.name ∉ sysNames)) ∧
    (∀ (u : String) (cats : List Category) (c : Category),
       ((cats.filter (fun x => decide (x.owner = some u))).map Category.name).Nodup →
       c ∈ cats → c.owner = some u → c.name ∉ sysNames →
       c ∈ get_categories u cats) ∧
    (∀ (u : String) (cats : List Category),
       (get_categories u cats).Pairwise (fun a b => strLe a.name b.name = true)) := by
  refine ⟨mem_default_mem_get_categories, ?_, ?_, ?_⟩
  · intro u cats c hc
    unfold get_categories at hc
    rw [mem_sortCats] at hc
    rcases List.mem_map.mp hc with ⟨p, hp, hpc⟩
    rcases foldl_catStep_mem u cats _ p hp with h1 | ⟨h2, h3, h4, h5⟩
    · left
      rcases List.mem_map.mp h1 with ⟨d, hd, hdp⟩
      rw [← hpc, ← hdp]
      exact hd
    · right
      rw [init_map_keys] at h5
      rw [← hpc]
      exact ⟨h2, h4, by rw [← h3]; exact h5⟩
  · intro u cats c hnd hc howner hname
    unfold get_categories
    rw [mem_sortCats]
    have h1 : (c.name, c) ∈ cats.foldl (catStep u)
        (DEFAULT_CATEGORIES.map (fun d => (d.name, d))) := by
      apply foldl_catStep_first u cats _ c hc howner ?_ hnd
      rw [init_map_keys]
      exact hname
    exact List.mem_map_of_mem Prod.snd h1
  · intro u cats
    exact sortCats_pairwise _

/-- Claim C5, counterexample: a persisted custom category named `"food"` —
identical to the system category `"Food"` up to letter case — IS returned by
`get_categories` for its owner, because the shadow check
`c['name'] not in cat_map` is case-sensitive; only `add_category` checks
case-insensitively. -/
theorem C5_counterexample :
    c5foodLower.name = "food" ∧ c5foodLower.type = "custom" ∧
    (∃ c ∈ DEFAULT_CATEGORIES, c.name = "Food") ∧
    c5foodLower ∈ get_categories "u" c5cats := by
  refine ⟨rfl, rfl, ⟨⟨none, "Food", "system", none⟩, by decide, rfl⟩, by decide⟩

/-- Witness for C5: a non-colliding custom category of the user is
returned. -/
theorem C5_get_categories_shadowing_witness :
    ((w5cats.filter (fun x => decide (x.owner = some "u"))).map Category.name).Nodup ∧
    w5cat ∈ get_categories "u" w5cats :=
  ⟨by decide,
   C5_get_categories_shadowing.2.2.1 "u" w5cats w5cat
     (by decide) (by decide) (by decide) (by decide)⟩

/-- Claim C10: for every username and every categories document (including
the empty one that `load` substitutes for a corrupt or missing file), the
returned list contains the five in-memory seed records — which carry only
`name` and `type` (`id` and `owner` keys absent) — and every returned record
bearing a system name IS one of those seed records, never a persisted
`sys_`-id record. -/
theorem C10_system_seed_returned :
    DEFAULT_CATEGORIES =
      [⟨none, "General", "system", none⟩, ⟨none, "Food", "system", none⟩,
       ⟨none, "Medicine", "system", none⟩, ⟨none, "Documents", "system", none⟩,
       ⟨none, "Personal Care", "system", none⟩] ∧
    (∀ (u : String) (cats : List Category) (c : Category),
       c ∈ DEFAULT_CATEGORIES → c ∈ get_categories u cats) ∧
    (∀ (u : String) (cats : List Category) (c : Category),
       c ∈ get_categories u cats → c.name ∈ sysNames → c ∈ DEFAULT_CATEGORIES) := by
  refine ⟨rfl, mem_default_mem_get_categories, ?_⟩
  intro u cats c hc hname
  unfold get_categories at hc
  rw [mem_sortCats] at hc
  rcases List.mem_map.mp hc with ⟨p, hp, hpc⟩
  rcases foldl_catStep_mem u cats _ p hp with h1 | ⟨h2, h3, h4, h5⟩
  · rcases List.mem_map.mp h1 with ⟨d, hd, hdp⟩
    rw [← hpc, ← hdp]
    exact hd
  · exfalso
    rw [init_map_keys] at h5
    apply h5
    rw [h3, hpc]
    exact hname

/-- Witness for C10: the seed `"General"` record (no id, no owner) is in the
output even for the empty document. -/
theorem C10_system_seed_returned_witness :
    (⟨none, "General", "system", none⟩ : Category) ∈ DEFAULT_CATEGORIES ∧
    (⟨none, "General", "system", none⟩ : Category) ∈ get_categories "u" [] :=
  ⟨by decide,
   C10_system_seed_returned.2.1 "u" [] ⟨none, "General", "system", none⟩ (by decide)⟩

lemma migrate_items_fst (n u : String) (l : List Item) :
    (migrate_items n u l).1 = l.map (migrateOne n u) := by
  induction l with
  | nil => rfl
  | cons x xs ih =>
      rcases hmi : migrate_items n u xs with ⟨tl, d⟩
      rw [hmi] at ih
      by_cases hx : x.owner = u ∧ x.category = some n
      · simp [migrate_items, hmi, hx, migrateOne, ih]
      · simp [migrate_items, hmi, hx, migrateOne, ih]

lemma migrate_items_dirty (n u : String) (l : List Item) :
    (migrate_items n u l).2 = true ↔ ∃ it ∈ l, it.owner = u ∧ it.category = some n := by
  induction l with
  | nil => simp [migrate_items]
  | cons x xs ih =>
      rcases hmi : migrate_items n u xs with ⟨tl, d⟩
      rw [hmi] at ih
      by_cases hx : x.owner = u ∧ x.category = some n
      · simp [migrate_items, hmi, hx]
      · simp [migrate_items, hmi, hx, ih]

lemma map_eq_self_of_items (f : Item → Item) (l : List Item)
    (h : ∀ x ∈ l, f x = x) : l.map f = l := by
  induction l with
  | nil => rfl
  | cons x xs ih =>
      rw [List.map_cons, h x (List.mem_cons_self x xs),
        ih (fun y hy => h y (List.mem_cons_of_mem x hy))]

lemma map_eq_self_at_items (f : Item → Item) (l : List Item)
    (h : l.map f = l) : ∀ x ∈ l, f x = x := by
  induction l with
  | nil => intro x hx; simp at hx
  | cons y ys ih =>
      rw [List.map_cons, List.cons.injEq] at h
      intro x hx
      rcases List.mem_cons.mp hx with h1 | h1
      · subst h1; exact h.1
      · exact ih h.2 x h1

/-- When the deleted name is not the fallback name, migration actually
changes a list iff some item of the owner references the deleted name. -/
lemma migrate_map_ne (n u : String) (hG : n ≠ "General") (l : List Item) :
    (∃ it ∈ l, it.owner = u ∧ it.category = some n) ↔
      l.map (migrateOne n u) ≠ l := by
  constructor
  · rintro ⟨it, hmem, hit⟩ hEq
    have hfix := map_eq_self_at_items (migrateOne n u) l hEq it hmem
    unfold migrateOne at hfix
    rw [if_pos hit] at hfix
    have hcat := congrArg Item.category hfix
    simp at hcat
    rw [hit.2] at hcat
    exact hG (by injection hcat with h2; exact h2.symm)
  · intro hne
    by_contra hno
    push_neg at hno
    apply hne
    apply map_eq_self_of_items
    intro x hx
    unfold migrateOne
    rw [if_neg ?_]
    intro hc
    exact (hno x hx hc.1) hc.2

/-- Claim C6: when `delete_category(name, username)` succeeds (and, per the
data-model invariant, the deleted custom name is not the system fallback
name `"General"`), every item of that owner in the fresh and expired
collections referencing the deleted name is reassigned to `"General"`, every
item of any other owner keeps its category (the migration is the identity on
it), and each of the two collections is saved exactly when its contents
changed. -/
theorem C6_delete_category_migration (name u : String) (st : Store)
    (hG : name ≠ "General")
    (hok : (delete_category name u st).ok = true) :
    (delete_category name u st).store.fresh = st.fresh.map (migrateOne name u) ∧
    (delete_category name u st).store.expired = st.expired.map (migrateOne name u) ∧
    ((delete_category name u st).savedFresh = true ↔
      (delete_category name u st).store.fresh ≠ st.fresh) ∧
    ((delete_category name u st).savedExpired = true ↔
      (delete_category name u st).store.expired ≠ st.expired) ∧
    (∀ it ∈ st.fresh ++ st.expired, it.owner = u → it.category = some name →
      migrateOne name u it = { it with category := some "General" }) ∧
    (∀ it ∈ st.fresh ++ st.expired, it.owner ≠ u → migrateOne name u it = it) := by
  cases hf : findCustom name u st.categories with
  | none => rw [show delete_category name u st = ⟨false, st, false, false, false⟩ from by
        simp [delete_category, hf]] at hok; exact absurd hok (by simp)
  | some c =>
      rcases hfr : migrate_items name u st.fresh with ⟨fr, df⟩
      rcases hex : migrate_items name u st.expired with ⟨ex, de⟩
      have hfr1 : fr = st.fresh.map (migrateOne name u) := by
        have := migrate_items_fst name u st.fresh
        rwa [hfr] at this
      have hex1 : ex = st.expired.map (migrateOne name u) := by
        have := migrate_items_fst name u st.expired
        rwa [hex] at this
      have hdf : df = true ↔ ∃ it ∈ st.fresh, it.owner = u ∧ it.category = some name := by
        have := migrate_items_dirty name u st.fresh
        rwa [hfr] at this
      have hde : de = true ↔ ∃ it ∈ st.expired, it.owner = u ∧ it.category = some name := by
        have := migrate_items_dirty name u st.expired
        rwa [hex] at this
      have hres : delete_category name u st =
          ⟨true, { st with
                     categories := st.categories.filter (fun x => decide (x.id ≠ c.id)),
                     fresh := fr, expired := ex },
           true, df, de⟩ := by
        simp [delete_category, hf, hfr, hex]
      rw [hres]
      refine ⟨hfr1, hex1, ?_, ?_, ?_, ?_⟩
      · rw [hfr1, hdf]
        exact migrate_map_ne name u hG st.fresh
      · rw [hex1, hde]
        exact migrate_map_ne name u hG st.expired
      · intro it _ how hcat
        unfold migrateOne
        rw [if_pos ⟨how, hcat⟩]
      · intro it _ how
        unfold migrateOne
        rw [if_neg (fun hc => how hc.1)]

/-- Witness for C6: deleting Ann's custom category migrates her item and
leaves Bob's same-named item untouched. -/
theorem C6_delete_category_migration_witness :
    (delete_category "Snacks" "ann" w6store).store.fresh =
      w6store.fresh.map (migrateOne "Snacks" "ann") :=
  (C6_delete_category_migration "Snacks" "ann" w6store (by decide) (by decide)).1

/-- Claim C7, counterexample: a `save` that fails during serialization into
the temporary file leaves the partially written temporary file behind
(`temp_name` is bound only after `json.dump` returns, so the cleanup guard
`'temp_name' in locals()` skips the removal), contradicting the claim that
the temporary file is removed for every mid-write failure.  The original
target is still untouched. -/
theorem C7_counterexample :
    save (FailMode.duringSerialize "garbled") "payload" (some "original") =
      ⟨true, some "original", some "garbled"⟩ ∧
    (save (FailMode.duringSerialize "garbled") "payload" (some "original")).tempLeft ≠
      none := by
  exact ⟨rfl, by decide⟩

/-- Claim C7 (amended): every failing `save` propagates the error and leaves
the target file byte-identical to its prior contents; the temporary file is
removed when the failure happens after serialization completed (or before a
temporary file existed at all), but a failure during serialization leaves
the temporary file behind. -/
theorem C7_save_failure_keeps_target (mode : FailMode) (content : String)
    (old : Option String) (h : mode ≠ FailMode.success) :
    (save mode content old).raised = true ∧
    (save mode content old).target = old ∧
    (mode = FailMode.beforeRename ∨ mode = FailMode.createFail →
      (save mode content old).tempLeft = none) := by
  cases mode with
  | success => exact absurd rfl h
  | createFail => exact ⟨rfl, rfl, fun _ => rfl⟩
  | duringSerialize w =>
      refine ⟨rfl, rfl, ?_⟩
      rintro (h1 | h1) <;> exact FailMode.noConfusion h1
  | beforeRename => exact ⟨rfl, rfl, fun _ => rfl⟩

/-- Witness for C7 at a concrete failing save. -/
theorem C7_save_failure_keeps_target_witness :
    FailMode.beforeRename ≠ FailMode.success ∧
    ((save FailMode.beforeRename "payload" (some "original")).raised = true ∧
     (save FailMode.beforeRename "payload" (some "original")).target = some "original" ∧
     (FailMode.beforeRename = FailMode.beforeRename ∨
        FailMode.beforeRename = FailMode.createFail →
       (save FailMode.beforeRename "payload" (some "original")).tempLeft = none)) :=
  ⟨by decide,
   C7_save_failure_keeps_target FailMode.beforeRename "payload" (some "original")
     (by decide)⟩

/-- Claim C9: `delete_item` writes only the fresh document — the users,
expired and categories documents of the resulting state are unchanged for
every call, so an item already archived into the expired collection is never
removed by `delete_item`. -/
theorem C9_delete_item_frame (itemId : Int) (username : String) (st : Store) :
    (delete_item itemId username st).store.users = st.users ∧
    (delete_item itemId username st).store.expired = st.expired ∧
    (delete_item itemId username st).store.categories = st.categories ∧
    (∀ it ∈ st.expired, it ∈ (delete_item itemId username st).store.expired) := by
  simp only [delete_item]
  split <;> exact ⟨rfl, rfl, rfl, fun it h => h⟩

/-- Witness for C9: a concrete archived item survives a `delete_item` call
with its own id. -/
theorem C9_delete_item_frame_witness :
    w9item ∈ w9store.expired ∧ w9item ∈ (delete_item 7 "a" w9store).store.expired :=
  ⟨by decide, (C9_delete_item_frame 7 "a" w9store).2.2.2 w9item (by decide)⟩

/-- Claim C4: with the data-model invariant that ids are unique within the
fresh collection, deleting another owner's item id returns `False`, leaves
the state unchanged and saves nothing; in general `delete_item` keeps
exactly the items not matching both id and owner, returns `True` iff the
length changed, and saves iff it returns `True`. -/
theorem C4_delete_item_owner_scoped :
    (∀ (A B : String) (st : Store) (it : Item), A ≠ B → it ∈ st.fresh →
        it.owner = A → (st.fresh.map Item.id).Nodup →
        delete_item it.id B st = ⟨false, st, false⟩) ∧
    (∀ (itemId : Int) (username : String) (st : Store),
        (delete_item itemId username st).store.fresh =
          st.fresh.filter (fun i => decide (¬(i.id = itemId ∧ i.owner = username))) ∧
        ((delete_item itemId username st).deleted = true ↔
          (st.fresh.filter
              (fun i => decide (¬(i.id = itemId ∧ i.owner = username)))).length ≠
            st.fresh.length) ∧
        (delete_item itemId username st).savedFresh =
          (delete_item itemId username st).deleted) := by
  constructor
  · intro A B st it hAB hmem howner hnodup
    have hkeep :
        st.fresh.filter (fun i => decide (¬(i.id = it.id ∧ i.owner = B))) = st.fresh := by
      rw [List.filter_eq_self]
      intro j hj
      simp only [decide_eq_true_eq]
      rintro ⟨hid, hown⟩
      have hji : j = it := List.inj_on_of_nodup_map hnodup hj hmem hid
      exact hAB (by rw [← howner, ← hji, hown])
    simp only [delete_item, hkeep]
    rw [if_neg (fun h => h rfl)]
  · intro itemId username st
    simp only [delete_item]
    split
    next h => exact ⟨rfl, by simpa using h, rfl⟩
    next h =>
      have hlen :
          (st.fresh.filter
              (fun i => decide (¬(i.id = itemId ∧ i.owner = username)))).length =
            st.fresh.length := by omega
      have hfil :
          st.fresh.filter (fun i => decide (¬(i.id = itemId ∧ i.owner = username))) =
            st.fresh :=
        List.filter_eq_self.mpr (List.filter_length_eq_length.mp hlen)
      exact ⟨hfil.symm, by rw [hfil]; simp, rfl⟩

/-- Witness for C4: Bob cannot delete Alice's item. -/
theorem C4_delete_item_owner_scoped_witness :
    ("alice" ≠ "bob" ∧ w4item ∈ w4store.fresh ∧ w4item.owner = "alice" ∧
      (w4store.fresh.map Item.id).Nodup) ∧
    delete_item w4item.id "bob" w4store = ⟨false, w4store, false⟩ :=
  ⟨by decide,
   C4_delete_item_owner_scoped.1 "alice" "bob" w4store w4item
     (by decide) (by decide) (by decide) (by decide)⟩

/-- Claim C8 (amended): a sequence of `add_item` calls appends items whose
ids are exactly the microsecond clock readings the calls observed, so the
resulting ids are pairwise distinct provided those microsecond readings are
pairwise distinct (two calls within the same microsecond collide — see the
counterexample). -/
theorem C8_add_item_ids (todayStr username : String) (st : Store)
    (calls : List AddCall) :
    (addMany todayStr username st calls).fresh =
      st.fresh ++ calls.map (fun c =>
        mkItem c.nowMicros todayStr c.name c.expiry c.category username) ∧
    ((calls.map AddCall.nowMicros).Nodup →
      ((calls.map (fun c =>
          mkItem c.nowMicros todayStr c.name c.expiry c.category username)).map
        Item.id).Nodup) := by
  constructor
  · induction calls generalizing st with
    | nil => simp [addMany]
    | cons c cs ih => simp [addMany, add_item, ih]
  · intro h
    have hids :
        ((calls.map (fun c =>
            mkItem c.nowMicros todayStr c.name c.expiry c.category username)).map
          Item.id) = calls.map AddCall.nowMicros := by
      rw [List.map_map]; rfl
    rw [hids]; exact h

/-- Claim C8, counterexample: two `add_item` calls whose microsecond clock
readings coincide (rapid succession within one microsecond) produce two
distinct items with equal ids, so the ids are not pairwise distinct. -/
theorem C8_counterexample :
    (addMany "2026-10-12" "u" ⟨[], [], [], []⟩ c8calls).fresh.map Item.id =
      [1000, 1000] ∧
    (addMany "2026-10-12" "u" ⟨[], [], [], []⟩ c8calls).fresh.map Item.name =
      ["first", "second"] ∧
    ¬ ((addMany "2026-10-12" "u" ⟨[], [], [], []⟩ c8calls).fresh.map Item.id).Nodup := by
  decide

lemma healCategory_expiry_date (it : Item) :
    ((healCategory it).1).expiry_date = it.expiry_date := by
  cases h : it.category <;> simp [healCategory, h]

lemma healCategory_cat_some (it : Item) : ((healCategory it).1).category ≠ none := by
  cases h : it.category <;> simp [healCategory, h]

lemma healCategory_of_some (it : Item) (h : it.category ≠ none) :
    healCategory it = (it, false) := by
  cases hc : it.category with
  | none => exact absurd hc h
  | some v => simp [healCategory, hc]

/-- An expired record whose `expiry_date` key is present never makes the
purge step raise. -/
lemma purgeItem_ok (t : Nat) (it : Item) (h : it.expiry_date ≠ PyVal.absent) :
    ∃ r, purgeItem t it = .ok r := by
  rcases hheal : healCategory it with ⟨it1, d1⟩
  have hexp : it1.expiry_date = it.expiry_date := by
    have := healCategory_expiry_date it
    rwa [hheal] at this
  cases hE : it.expiry_date with
  | absent => exact absurd hE h
  | null => exact ⟨(none, true), by simp [purgeItem, hheal, hexp, hE]⟩
  | intv n => exact ⟨(none, true), by simp [purgeItem, hheal, hexp, hE]⟩
  | str s =>
      cases hP : strptimeYmd s with
      | none => exact ⟨(none, true), by simp [purgeItem, hheal, hexp, hE, hP]⟩
      | some dt =>
          by_cases hlt : t < toDays dt.y dt.m dt.d + 30
          · exact ⟨(some it1, d1), by simp [purgeItem, hheal, hexp, hE, hP, hlt]⟩
          · exact ⟨(none, true), by simp [purgeItem, hheal, hexp, hE, hP, hlt]⟩

/-- An item the classification step sends to the expired side has a string
`expiry_date` (only the string-comparison branch moves items). -/
lemma classify_expired_str (ts : String) (j j' : Item)
    (h : classify ts j = .expired j') : ∃ s, j'.expiry_date = PyVal.str s := by
  unfold classify at h
  split at h
  next s heq =>
    split at h
    · split at h
      · injection h with h2
        refine ⟨s, ?_⟩
        rw [← h2]
        simpa using heq
      · exact Classified.noConfusion h
    · exact Classified.noConfusion h
  next n heq => exact Classified.noConfusion h
  next heq => exact Classified.noConfusion h
  next heq => exact Classified.noConfusion h

/-- Every item the fresh sweep moves to the expired list has a string
`expiry_date`. -/
lemma sweepFresh_moved_str (ts : String) (l : List Item) :
    ∀ it ∈ (sweepFresh ts l).2.1, ∃ s, it.expiry_date = PyVal.str s := by
  induction l with
  | nil => intro it h; simp [sweepFresh] at h
  | cons x rest ih =>
      intro it hmem
      rcases hheal : healCategory x with ⟨x1, d1⟩
      rcases hsw : sweepFresh ts rest with ⟨nf, mv, d⟩
      rw [hsw] at ih
      cases hcl : classify ts x1 with
      | expired it2 =>
          simp only [sweepFresh, hheal, hsw, hcl] at hmem
          rcases List.mem_cons.mp hmem with h2 | h2
          · subst h2
            exact classify_expired_str ts x1 it hcl
          · exact ih it h2
      | fresh x2 =>
          simp only [sweepFresh, hheal, hsw, hcl] at hmem
          exact ih it hmem

/-- The purge pass never raises when every record in the list carries an
`expiry_date` key. -/
lemma purgeExpired_ok (t : Nat) (l : List Item)
    (h : ∀ it ∈ l, it.expiry_date ≠ PyVal.absent) :
    ∃ p, purgeExpired t l = .ok p := by
  induction l with
  | nil => exact ⟨([], false), rfl⟩
  | cons x rest ih =>
      rcases purgeItem_ok t x (h x (List.mem_cons_self x rest)) with ⟨⟨keep, d1⟩, hx⟩
      rcases ih (fun it hit => h it (List.mem_cons_of_mem x hit)) with ⟨⟨tl, d2⟩, hrest⟩
      cases keep with
      | some x2 => exact ⟨(x2 :: tl, d1 || d2), by simp [purgeExpired, hx, hrest]⟩
      | none => exact ⟨(tl, d1 || d2), by simp [purgeExpired, hx, hrest]⟩

/-- Claim C1 (amended): for an expired record whose `expiry_date` key is
present, the purge pass never raises and drops the record exactly when the
strict parse fails (malformed string, null, or a non-string value) or the
parsed date plus 30 days is on or before today; otherwise the (self-healed)
record is retained.  A record whose `expiry_date` key is absent instead
raises an uncaught `KeyError`, and `get_inventory` succeeds whenever every
persisted expired record carries the key. -/
theorem C1_purge_characterization :
    (∀ (t : Nat) (it : Item), it.expiry_date ≠ PyVal.absent →
      (∃ r, purgeItem t it = .ok r) ∧
      (purgeItem t it = .ok (none, true) ↔
        parsedExpiry it = none ∨
          ∃ dt, parsedExpiry it = some dt ∧ toDays dt.y dt.m dt.d + 30 ≤ t) ∧
      (¬(parsedExpiry it = none ∨
          ∃ dt, parsedExpiry it = some dt ∧ toDays dt.y dt.m dt.d + 30 ≤ t) →
        purgeItem t it = .ok (some (healCategory it).1, (healCategory it).2))) ∧
    (∀ (t : Nat) (it : Item), it.expiry_date = PyVal.absent →
      purgeItem t it = .error ()) ∧
    (∀ (ts : String) (td : Nat) (u : String) (st : Store),
      (∀ it ∈ st.expired, it.expiry_date ≠ PyVal.absent) →
      ∃ r, get_inventory ts td u st = .ok r) := by
  refine ⟨?_, ?_, ?_⟩
  · intro t it h
    refine ⟨purgeItem_ok t it h, ?_, ?_⟩
    · rcases hheal : healCategory it with ⟨it1, d1⟩
      have hexp : it1.expiry_date = it.expiry_date := by
        have := healCategory_expiry_date it
        rwa [hheal] at this
      cases hE : it.expiry_date with
      | absent => exact absurd hE h
      | null => simp [purgeItem, hheal, hexp, hE, parsedExpiry]
      | intv n => simp [purgeItem, hheal, hexp, hE, parsedExpiry]
      | str s =>
          cases hP : strptimeYmd s with
          | none => simp [purgeItem, hheal, hexp, hE, hP, parsedExpiry]
          | some dt =>
              by_cases hlt : t < toDays dt.y dt.m dt.d + 30
              · simp [purgeItem, hheal, hexp, hE, hP, parsedExpiry, hlt]
              · simp [purgeItem, hheal, hexp, hE, hP, parsedExpiry, hlt]
                omega
    · intro hkeep
      rcases hheal : healCategory it with ⟨it1, d1⟩
      have hexp : it1.expiry_date = it.expiry_date := by
        have := healCategory_expiry_date it
        rwa [hheal] at this
      push_neg at hkeep
      rcases hkeep with ⟨hparse, hfresh⟩
      cases hE : it.expiry_date with
      | absent => exact absurd hE h
      | null => exact absurd (by simp [parsedExpiry, hE]) hparse
      | intv n => exact absurd (by simp [parsedExpiry, hE]) hparse
      | str s =>
          cases hP : strptimeYmd s with
          | none => exact absurd (by simp [parsedExpiry, hE, hP]) hparse
          | some dt =>
              have hdt : parsedExpiry it = some dt := by simp [parsedExpiry, hE, hP]
              have hlt : t < toDays dt.y dt.m dt.d + 30 := by
                have := hfresh dt hdt
                omega
              simp [purgeItem, hheal, hexp, hE, hP, hlt]
  · intro t it hE
    rcases hheal : healCategory it with ⟨it1, d1⟩
    have hexp : it1.expiry_date = it.expiry_date := by
      have := healCategory_expiry_date it
      rwa [hheal] at this
    simp [purgeItem, hheal, hexp, hE]
  · intro ts td u st h
    rcases hsw : sweepFresh ts st.fresh with ⟨nf, mv, d1⟩
    have hmv : ∀ it ∈ mv, it.expiry_date ≠ PyVal.absent := by
      intro it hit
      have := sweepFresh_moved_str ts st.fresh it (by rw [hsw]; exact hit)
      rcases this with ⟨s, hs⟩
      rw [hs]
      intro hc
      exact PyVal.noConfusion hc
    have hall : ∀ it ∈ st.expired ++ mv, it.expiry_date ≠ PyVal.absent := by
      intro it hit
      rcases List.mem_append.mp hit with h1 | h1
      · exact h it h1
      · exact hmv it h1
    rcases purgeExpired_ok td (st.expired ++ mv) hall with ⟨⟨fe, d2⟩, hpe⟩
    exact ⟨⟨{ st with fresh := nf, expired := fe }, d1 || d2,
            nf.filter (fun i => decide (i.owner = u)),
            fe.filter (fun i => decide (i.owner = u))⟩,
           by simp [get_inventory, hsw, hpe]⟩

/-- Claim C1, counterexample: a persisted expired record with no
`expiry_date` key makes `get_inventory` raise (`KeyError` is not among the
caught `ValueError`/`TypeError`), contradicting the claim that missing-date
expired records are silently purged and that this handling never raises. -/
theorem C1_counterexample :
    c1item.expiry_date = PyVal.absent ∧
    get_inventory "2026-10-12" (toDays 2026 10 12) "u" c1store = .error () := by
  exact ⟨rfl, by decide⟩

/-- Witness for C1 at a concrete 41-day-old expired record. -/
theorem C1_purge_characterization_witness :
    w1item.expiry_date ≠ PyVal.absent ∧
    (purgeItem (toDays 2026 10 12) w1item = .ok (none, true) ↔
      parsedExpiry w1item = none ∨
        ∃ dt, parsedExpiry w1item = some dt ∧
          toDays dt.y dt.m dt.d + 30 ≤ toDays 2026 10 12) :=
  ⟨by decide,
   (C1_purge_characterization.1 (toDays 2026 10 12) w1item (by decide)).2.1⟩

/-- Claim C2 (amended): an item of the fresh collection with its `category`
key present is moved to the expired list, stamped `archived_at = today`, and
the dirty flag set, exactly when its `expiry_date` is a non-empty (truthy)
string lexicographically less than today's ISO string; in every other case —
including the raising comparison of a truthy non-string and including the
present-but-empty string, see the counterexample — the item is retained in
fresh unchanged with no dirty contribution. -/
theorem C2_classification (ts : String) (it : Item) (rest : List Item)
    (hcat : it.category ≠ none) :
    ((∃ s, it.expiry_date = PyVal.str s ∧ s ≠ "" ∧ strLt s ts = true) →
      sweepFresh ts (it :: rest) =
        ((sweepFresh ts rest).1,
          { it with archived_at := some ts } :: (sweepFresh ts rest).2.1, true)) ∧
    ((¬ ∃ s, it.expiry_date = PyVal.str s ∧ s ≠ "" ∧ strLt s ts = true) →
      sweepFresh ts (it :: rest) =
        (it :: (sweepFresh ts rest).1, (sweepFresh ts rest).2.1,
          (sweepFresh ts rest).2.2)) := by
  have hheal := healCategory_of_some it hcat
  rcases hsw : sweepFresh ts rest with ⟨nf, mv, d⟩
  constructor
  · rintro ⟨s, hs, hne, hlt⟩
    simp [sweepFresh, hheal, hsw, classify, hs, hne, hlt]
  · intro hn
    cases hE : it.expiry_date with
    | str s =>
        by_cases hse : s = ""
        · subst hse
          simp [sweepFresh, hheal, hsw, classify, hE]
        · cases hlt : strLt s ts with
          | true => exact absurd ⟨s, hE, hse, hlt⟩ hn
          | false => simp [sweepFresh, hheal, hsw, classify, hE, hse, hlt]
    | absent => simp [sweepFresh, hheal, hsw, classify, hE]
    | null => simp [sweepFresh, hheal, hsw, classify, hE]
    | intv n => simp [sweepFresh, hheal, hsw, classify, hE]

/-- A classification result on the fresh side returns the input item
unchanged. -/
lemma classify_fresh_eq (ts : String) (j j' : Item)
    (h : classify ts j = .fresh j') : j' = j := by
  unfold classify at h
  split at h
  next s heq =>
    split at h
    · split at h
      · exact Classified.noConfusion h
      · injection h with h2; exact h2.symm
    · injection h with h2; exact h2.symm
  next n heq => injection h with h2; exact h2.symm
  next heq => injection h with h2; exact h2.symm
  next heq => injection h with h2; exact h2.symm

/-- Every survivor of the fresh sweep has a category and classifies to the
fresh side unchanged. -/
lemma sweepFresh_kept (ts : String) (l : List Item) :
    ∀ (nf mv : List Item) (d : Bool), sweepFresh ts l = (nf, mv, d) →
      ∀ it ∈ nf, it.category ≠ none ∧ classify ts it = .fresh it := by
  induction l with
  | nil =>
      intro nf mv d h it hit
      simp only [sweepFresh, Prod.mk.injEq] at h
      obtain ⟨h1, h2, h3⟩ := h
      subst h1
      simp at hit
  | cons x rest ih =>
      intro nf mv d h it hit
      rcases hheal : healCategory x with ⟨x1, d1⟩
      rcases hsw : sweepFresh ts rest with ⟨nf0, mv0, d0⟩
      cases hcl : classify ts x1 with
      | expired x2 =>
          simp only [sweepFresh, hheal, hsw, hcl, Prod.mk.injEq] at h
          obtain ⟨h1, h2, h3⟩ := h
          subst h1
          exact ih nf0 mv0 d0 hsw it hit
      | fresh x2 =>
          have hx2 : x2 = x1 := classify_fresh_eq ts x1 x2 hcl
          simp only [sweepFresh, hheal, hsw, hcl, Prod.mk.injEq] at h
          obtain ⟨h1, h2, h3⟩ := h
          subst h1
          rcases List.mem_cons.mp hit with h4 | h4
          · subst h4
            have hcat : x1.category ≠ none := by
              have := healCategory_cat_some x
              rwa [hheal] at this
            rw [hx2] at hcl ⊢
            exact ⟨hcat, hcl⟩
          · exact ih nf0 mv0 d0 hsw it h4

/-- A list whose items all classify to the fresh side unchanged (with
category present) sweeps to itself with no moves and no dirty flag. -/
lemma sweepFresh_stable (ts : String) (l : List Item)
    (h : ∀ it ∈ l, it.category ≠ none ∧ classify ts it = .fresh it) :
    sweepFresh ts l = (l, [], false) := by
  induction l with
  | nil => rfl
  | cons x rest ih =>
      obtain ⟨hc, hcl⟩ := h x (List.mem_cons_self x rest)
      have hrest := ih (fun it hit => h it (List.mem_cons_of_mem x hit))
      simp [sweepFresh, healCategory_of_some x hc, hrest, hcl]

/-- An expired record the purge kept is stable: a second purge keeps it
again with no dirty contribution. -/
lemma purgeItem_keep_stable (t : Nat) (x x' : Item) (d : Bool)
    (h : purgeItem t x = .ok (some x', d)) :
    purgeItem t x' = .ok (some x', false) := by
  rcases hheal : healCategory x with ⟨x1, d1⟩
  have hexp : x1.expiry_date = x.expiry_date := by
    have := healCategory_expiry_date x
    rwa [hheal] at this
  cases hE : x.expiry_date with
  | absent => simp [purgeItem, hheal, hexp, hE] at h
  | null => simp [purgeItem, hheal, hexp, hE] at h
  | intv n => simp [purgeItem, hheal, hexp, hE] at h
  | str s =>
      cases hP : strptimeYmd s with
      | none => simp [purgeItem, hheal, hexp, hE, hP] at h
      | some dt =>
          by_cases hlt : t < toDays dt.y dt.m dt.d + 30
          · simp [purgeItem, hheal, hexp, hE, hP, hlt] at h
            obtain ⟨hx1, hd⟩ := h
            have hcat : x'.category ≠ none := by
              rw [← hx1]
              have := healCategory_cat_some x
              rwa [hheal] at this
            have hexp' : x'.expiry_date = PyVal.str s := by
              rw [← hx1, hexp, hE]
            simp [purgeItem, healCategory_of_some x' hcat, hexp', hP, hlt]
          · simp [purgeItem, hheal, hexp, hE, hP, hlt] at h

/-- Every survivor of the purge pass is purge-stable. -/
lemma purgeExpired_kept (t : Nat) (l : List Item) :
    ∀ (fe : List Item) (d : Bool), purgeExpired t l = .ok (fe, d) →
      ∀ it ∈ fe, purgeItem t it = .ok (some it, false) := by
  induction l with
  | nil =>
      intro fe d h it hit
      simp only [purgeExpired] at h
      injection h with h2
      simp only [Prod.mk.injEq] at h2
      obtain ⟨h1, h3⟩ := h2
      subst h1
      simp at hit
  | cons x rest ih =>
      intro fe d h it hit
      cases hx : purgeItem t x with
      | error e => simp [purgeExpired, hx] at h
      | ok p =>
          rcases p with ⟨keep, d1⟩
          cases hrest : purgeExpired t rest with
          | error e => simp [purgeExpired, hx, hrest] at h
          | ok q =>
              rcases q with ⟨tl, d2⟩
              cases keep with
              | none =>
                  simp only [purgeExpired, hx, hrest] at h
                  injection h with h2
                  simp only [Prod.mk.injEq] at h2
                  obtain ⟨h1, h3⟩ := h2
                  subst h1
                  exact ih tl d2 hrest it hit
              | some x2 =>
                  simp only [purgeExpired, hx, hrest] at h
                  injection h with h2
                  simp only [Prod.mk.injEq] at h2
                  obtain ⟨h1, h3⟩ := h2
                  subst h1
                  rcases List.mem_cons.mp hit with h4 | h4
                  · subst h4
                    exact purgeItem_keep_stable t x it d1 hx
                  · exact ih tl d2 hrest it h4

/-- A list of purge-stable records purges to itself with no dirty flag. -/
lemma purgeExpired_stable (t : Nat) (l : List Item)
    (h : ∀ it ∈ l, purgeItem t it = .ok (some it, false)) :
    purgeExpired t l = .ok (l, false) := by
  induction l with
  | nil => rfl
  | cons x rest ih =>
      have hx := h x (List.mem_cons_self x rest)
      have hrest := ih (fun it hit => h it (List.mem_cons_of_mem x hit))
      simp [purgeExpired, hx, hrest]

/-- Claim C3: if `get_inventory` succeeds, running it again the same day on
the resulting persisted state returns the identical output, does not set the
dirty flag, and saves neither collection, leaving the state unchanged. -/
theorem C3_get_inventory_idempotent (ts : String) (td : Nat) (u : String)
    (st : Store) (r : InvResult) (h : get_inventory ts td u st = .ok r) :
    get_inventory ts td u r.store = .ok ⟨r.store, false, r.freshOut, r.expiredOut⟩ := by
  rcases hsw : sweepFresh ts st.fresh with ⟨nf, mv, d1⟩
  cases hpe : purgeExpired td (st.expired ++ mv) with
  | error e => simp [get_inventory, hsw, hpe] at h
  | ok p =>
      rcases p with ⟨fe, d2⟩
      simp only [get_inventory, hsw, hpe] at h
      injection h with h2
      subst h2
      have hkept := sweepFresh_kept ts st.fresh nf mv d1 hsw
      have hsw2 : sweepFresh ts nf = (nf, [], false) := sweepFresh_stable ts nf hkept
      have hpk := purgeExpired_kept td (st.expired ++ mv) fe d2 hpe
      have hpe2 : purgeExpired td fe = .ok (fe, false) := purgeExpired_stable td fe hpk
      simp [get_inventory, hsw2, hpe2]

/-- Witness for C3: after a first run that healed, moved and saved, the
second run returns the same output with no save. -/
theorem C3_get_inventory_idempotent_witness :
    get_inventory "2026-10-12" (toDays 2026 10 12) "u" w3store2 =
      .ok ⟨w3store2, false, [], [w3moved]⟩ :=
  C3_get_inventory_idempotent "2026-10-12" (toDays 2026 10 12) "u" w3store
    ⟨w3store2, true, [], [w3moved]⟩ (by decide)

/-- Claim C2, counterexample: an item whose `expiry_date` is present and
equal to the empty string is lexicographically less than today's ISO string,
yet the truthiness check `item.get('expiry_date')` keeps it in fresh with no
move, no `archived_at` stamp and no dirty flag. -/
theorem C2_counterexample :
    strLt "" "2026-10-12" = true ∧
    c2item.expiry_date = PyVal.str "" ∧
    sweepFresh "2026-10-12" [c2item] = ([c2item], [], false) := by
  decide

/-- Witness for C2: a yesterday-dated item is moved and stamped. -/
theorem C2_classification_witness :
    sweepFresh "2026-10-12" (w2item :: []) =
      ((sweepFresh "2026-10-12" []).1,
        { w2item with archived_at := some "2026-10-12" } ::
          (sweepFresh "2026-10-12" []).2.1, true) :=
  (C2_classification "2026-10-12" w2item [] (by decide)).1
    ⟨"2026-10-11", rfl, by decide, by decide⟩

/-- Witness for C8 at two calls one microsecond apart. -/
theorem C8_add_item_ids_witness :
    (c8callsW.map AddCall.nowMicros).Nodup ∧
    ((c8callsW.map (fun c =>
        mkItem c.nowMicros "2026-10-12" c.name c.expiry c.category "u")).map
      Item.id).Nodup :=
  ⟨by decide, (C8_add_item_ids "2026-10-12" "u" ⟨[], [], [], []⟩ c8callsW).2 (by decide)⟩

end App
